import Mathlib

/-!
Verification of the find_my_plot data-collection pipeline
(`src/data_collection/scrapeCDS.py` and `src/data_collection/get_mentions.py`).

Strings are modelled as `List Char` (`Str`); Python string primitives
(`split`, `replace`, `strip`, whitespace `split()`, `max(..., key=len)`)
are embedded as executable functions below, and the two regular
expressions of `get_mentions.py` are embedded as explicit matchers with
the semantics of `re.finditer` on those concrete patterns.
-/

abbrev Str := List Char

def strOf (s : String) : Str := s.data

/-- Character at index `i` of `s`, if in range. -/
def getC (s : Str) (i : Nat) : Option Char := (s.drop i).head?

/-- `pat` occurs in `s` starting at index `i` (entirely inside `s`). -/
def subAt (pat s : Str) (i : Nat) : Bool := decide ((s.drop i).take pat.length = pat)

/-- Python `pat in s`: `pat` occurs somewhere in `s`. -/
def containsSub (s pat : Str) : Bool := (List.range (s.length + 1)).any (subAt pat s)

/-- Python `s.startswith(pat)`. -/
def startsWithSeq (pat s : Str) : Bool := subAt pat s 0

/-- Python `s.endswith(pat)`. -/
def endsWithSeq (pat s : Str) : Bool := decide (pat.length ≤ s.length) && subAt pat s (s.length - pat.length)

/-- Index of the first occurrence of `pat` in `s`, if any. -/
def findSubIdx (pat s : Str) : Option Nat := (List.range (s.length + 1)).find? (subAt pat s)

/-- Python's whitespace set for `str.split()` / `str.strip()` (ASCII part). -/
def isPyWs (c : Char) : Bool := c = ' ' || c = '\t' || c = '\n' || c = '\r' || c = '\x0b' || c = '\x0c'

def splitWsGo : Nat → Str → List Str
  | 0, _ => []
  | _, [] => []
  | fuel + 1, c :: rest =>
    if isPyWs c then splitWsGo fuel rest
    else (c :: rest.takeWhile (fun x => !isPyWs x)) :: splitWsGo fuel (rest.dropWhile (fun x => !isPyWs x))

/-- Python `s.split()` — split on runs of whitespace, no empty tokens. -/
def pySplitWs (s : Str) : List Str := splitWsGo s.length s

def pySplitOnGo (sep : Str) : Nat → Str → List Str
  | 0, s => [s]
  | fuel + 1, s =>
    match findSubIdx sep s with
    | none => [s]
    | some i => s.take i :: pySplitOnGo sep fuel (s.drop (i + sep.length))

/-- Python `s.split(sep)` for a non-empty separator (keeps empty fields). -/
def pySplitOn (sep s : Str) : List Str := if sep = [] then [s] else pySplitOnGo sep s.length s

def pyReplaceGo (old new : Str) : Nat → Str → Str
  | 0, s => s
  | fuel + 1, s =>
    match findSubIdx old s with
    | none => s
    | some i => s.take i ++ new ++ pyReplaceGo old new fuel (s.drop (i + old.length))

/-- Python `s.replace(old, new)` for a non-empty `old` (left-to-right, non-overlapping). -/
def pyReplace (s old new : Str) : Str := if old = [] then s else pyReplaceGo old new s.length s

/-- Python `s.strip()`. -/
def pyStrip (s : Str) : Str := ((s.dropWhile isPyWs).reverse.dropWhile isPyWs).reverse

/-- One step of Python `max(..., key=len)`: a later element replaces the
current best only when its key is strictly greater. -/
def maxStep (acc : Option Str) (x : Str) : Option Str :=
  match acc with
  | none => some x
  | some b => if x.length > b.length then some x else some b

/-- Python `max(l, key=len)`: first element of maximal length, `none` on the
empty list (where Python raises `ValueError`). -/
def pyMaxByLen (l : List Str) : Option Str := l.foldl maxStep none

/-- Python `sep.join(l)`. -/
def strJoin (sep : Str) : List Str → Str
  | [] => []
  | x :: xs => xs.foldl (fun a y => a ++ sep ++ y) x

/-- Length of the maximal digit run of `s` starting at index `i`. -/
def digitRun (s : Str) (i : Nat) : Nat := ((s.drop i).takeWhile Char.isDigit).length

/-!
## Mention extraction (`get_mentions.py`)

`figPattern  = re.compile(r"[Ff]ig. (\d+)|[Ff]igures* (\d+)")`
`tablePattern = re.compile(r"[Tt]able (\d+)(?!.*\\hline$)")`

A matcher takes a line and a start position and returns, when the pattern
matches at exactly that position, the end position of the match together
with the captured digit group.  `finditer` then scans positions left to
right, emitting non-overlapping matches exactly as `re.finditer` does.
-/

/-- One match attempt of `figPattern` at position `i`.
First alternative `[Ff]ig. (\d+)`: `F`/`f`, `ig`, any single non-newline
character (the unescaped `.`), a space, then one or more digits (greedy).
Second alternative `[Ff]igures* (\d+)`: `F`/`f`, `igure`, a greedy run of
`s`, a space, then digits.  (For the `s*` part no backtracking case split is
needed: any shorter `s`-run leaves an `s` where the mandatory space must be,
so only the maximal run can continue the match.) -/
def figMatchAt (line : Str) (i : Nat) : Option (Nat × Str) :=
  let alt1 : Option (Nat × Str) :=
    match getC line i, getC line (i + 3), getC line (i + 4) with
    | some c0, some cdot, some csp =>
      if (c0 = 'F' || c0 = 'f') && subAt (strOf "ig") line (i + 1) && (cdot ≠ '\n') && (csp = ' ') then
        let d := digitRun line (i + 5)
        if d = 0 then none
        else some (i + 5 + d, (line.drop (i + 5)).takeWhile Char.isDigit)
      else none
    | _, _, _ => none
  match alt1 with
  | some r => some r
  | none =>
    match getC line i with
    | some c0 =>
      if (c0 = 'F' || c0 = 'f') && subAt (strOf "igure") line (i + 1) then
        let k := ((line.drop (i + 6)).takeWhile (fun c => c = 's')).length
        if getC line (i + 6 + k) = some ' ' then
          let d := digitRun line (i + 7 + k)
          if d = 0 then none
          else some (i + 7 + k + d, (line.drop (i + 7 + k)).takeWhile Char.isDigit)
        else none
      else none
    | none => none

/-- `$` of Python `re` (no `re.MULTILINE`): end of string, or just before a
final newline. -/
def dollarAt (line : Str) (i : Nat) : Bool :=
  i = line.length || (i + 1 = line.length && getC line i = some '\n')

/-- The lookahead body `.*\\hline$` matches starting at position `p`:
some position `q ≥ p`, reachable from `p` over non-newline characters
(`.` does not match a newline), carries the literal `\hline` followed by
an end-of-line position. -/
def hlineLookahead (line : Str) (p : Nat) : Bool :=
  (List.range (line.length + 1)).any fun q =>
    decide (p ≤ q) && ((line.drop p).take (q - p)).all (· ≠ '\n')
      && subAt (strOf "\\hline") line q && dollarAt line (q + 6)

/-- Backtracking over the greedy `(\d+)` group of `tablePattern`: try the
longest digit run first and shrink while the negative lookahead
`(?!.*\\hline$)` fails at the position right after the digits. -/
def tableBacktrack (line : Str) (digitsStart : Nat) : Nat → Option (Nat × Str)
  | 0 => none
  | k + 1 =>
    if hlineLookahead line (digitsStart + (k + 1)) then tableBacktrack line digitsStart k
    else some (digitsStart + (k + 1), (line.drop digitsStart).take (k + 1))

/-- One match attempt of `tablePattern = [Tt]able (\d+)(?!.*\\hline$)` at
position `i`. -/
def tableMatchAt (line : Str) (i : Nat) : Option (Nat × Str) :=
  match getC line i with
  | some c0 =>
    if (c0 = 'T' || c0 = 't') && subAt (strOf "able ") line (i + 1) then
      tableBacktrack line (i + 6) (digitRun line (i + 6))
    else none
  | none => none

/-- `re.finditer` scan: positions left to right, non-overlapping matches,
resuming after each match.  Produces `(start, matchEnd, capturedDigits)`. -/
def finditerGo (matchAt : Str → Nat → Option (Nat × Str)) (line : Str) :
    Nat → Nat → List (Nat × Nat × Str)
  | 0, _ => []
  | fuel + 1, i =>
    if i > line.length then []
    else
      match matchAt line i with
      | some (e, g) => (i, e, g) :: finditerGo matchAt line fuel (max e (i + 1))
      | none => finditerGo matchAt line fuel (i + 1)

def finditer (matchAt : Str → Nat → Option (Nat × Str)) (line : Str) : List (Nat × Nat × Str) :=
  finditerGo matchAt line (line.length + 1) 0

/-- `snipSentence(line, m)`:
`line[:m.start()].split(". ")[-1] + m.group(0) + line[m.end():].split(". ")[0]`. -/
def snipSentence (line : Str) (s e : Nat) : Str :=
  (pySplitOn (strOf ". ") (line.take s)).getLastD []
    ++ (line.drop s).take (e - s)
    ++ (pySplitOn (strOf ". ") (line.drop e)).headD []

/-- `defaultdict(list)` append preserving first-insertion key order. -/
def addMention (m : List (Str × List Str)) (k : Str) (v : Str) : List (Str × List Str) :=
  if m.any (fun p => p.1 = k) then
    m.map (fun p => if p.1 = k then (p.1, p.2 ++ [v]) else p)
  else m ++ [(k, [v])]

def figIdentifier : Str := strOf "Figure "
def tableIdentifier : Str := strOf "Table "

/-- `extractImageNamesAndMentions(allLines, pattern, identifier)`: for every
line, for every match of the pattern in the line (in `finditer` order),
append `snipSentence(line, m)` under the key `identifier + digits`. -/
def extractImageNamesAndMentions (allLines : List Str)
    (matchAt : Str → Nat → Option (Nat × Str)) (identifier : Str) : List (Str × List Str) :=
  allLines.foldl (fun acc line =>
    (finditer matchAt line).foldl (fun acc m =>
      addMention acc (identifier ++ m.2.2) (snipSentence line m.1 m.2.1)) acc) []

/-- The part of `line` after the first occurrence of `pat`
(Python `line.split(pat, 1)[1]`, assuming `pat` occurs). -/
def afterFirst (line pat : Str) : Str :=
  match findSubIdx pat line with
  | some i => line.drop (i + pat.length)
  | none => line

/-- `extractPaperName(metaLinesList)`: capture the text after `PAPER NAME :`
and following stripped lines until the `LAST MODIFICATION DATE :` label;
`none` when nothing was captured. -/
def extractPaperNameGo : Bool → List Str → List Str → List Str
  | _, acc, [] => acc
  | capture, acc, line :: rest =>
    if containsSub line (strOf "PAPER NAME :") then
      extractPaperNameGo true (acc ++ [pyStrip (afterFirst line (strOf "PAPER NAME :"))]) rest
    else if containsSub line (strOf "LAST MODIFICATION DATE :") && capture then acc
    else if capture then extractPaperNameGo capture (acc ++ [pyStrip line]) rest
    else extractPaperNameGo capture acc rest

def extractPaperName (metaLinesList : List Str) : Option Str :=
  match extractPaperNameGo false [] metaLinesList with
  | [] => none
  | ls => some (strJoin (strOf " ") ls)

/-- The literal-substitution table of `preprocess_text`, in the source's
dictionary insertion order. -/
def latexReplacements : List (Str × Str) :=
  [ (strOf "\\)", strOf ")"), (strOf "\\(", strOf "("),
    (strOf "\\rm ", strOf ""), (strOf "\\cal ", strOf ""),
    (strOf "\\pm", strOf "±"), (strOf "\\,", strOf ""),
    (strOf "\\;", strOf ""), (strOf "\\quad", strOf "  "),
    (strOf "\\qquad", strOf "    "),
    (strOf "\n", strOf " "), (strOf "\r\n", strOf " ") ]

/-- `convert_latex_to_text`, with the external pandoc call abstracted as an
oracle: `some out` models a successful conversion, `none` a `RuntimeError`,
in which case the input is returned unchanged. -/
def convert_latex_to_text (pandoc : Str → Option Str) (latexContent : Str) : Str :=
  match pandoc latexContent with
  | some out => out
  | none => latexContent

/-- `preprocess_text(text)`: apply the substitution table, drop strings
that still contain an environment begin marker, and run the pandoc
fallback when a backslash remains, collapsing newlines afterwards. -/
def preprocess_text (pandoc : Str → Option Str) (text : Str) : Str :=
  let t := latexReplacements.foldl (fun acc p => pyReplace acc p.1 p.2) text
  let t := if containsSub t (strOf "\\begin") then [] else t
  if t.contains '\\' then pyReplace (convert_latex_to_text pandoc t) (strOf "\n") (strOf " ")
  else t

def assocLookup (m : List (Str × List Str)) (k : Str) : Option (List Str) :=
  (m.find? (fun p => p.1 = k)).map (fun p => p.2)

/-- Python `{**a, **b}`: keys of `a` in order with values overridden by `b`
where both define them, then the keys of `b` not already in `a`. -/
def pyDictMerge (a b : List (Str × List Str)) : List (Str × List Str) :=
  a.map (fun p => (p.1, (assocLookup b p.1).getD p.2))
    ++ b.filter (fun p => assocLookup a p.1 = none)

/-- One element of the `figures` list of `process_directory`, as it appears
in the serialized JSON output. -/
structure MentionRecord where
  name : Str
  mentions : List (Str × List Str)
  atlusUrl : Str
  paper : Str
  paperName : Option Str
deriving DecidableEq

/-- `process_directory` on the two input files, up to the serialized
records.  In the source, every appended record holds a reference to the
single mutable `mentions_text` defaultdict, so at `json.dump` time each
record's `mentions` field renders as the final, complete mapping; the model
therefore gives every record the finished mapping.  `none` models the
`ValueError`/`IndexError` raised by `max` when the last metadata line has
no whitespace-separated token (or the metadata file is empty). -/
def process_directory (pandoc : Str → Option Str) (latexLines metaLines : List Str)
    (paper : Str) : Option (List MentionRecord) :=
  let paperName := extractPaperName metaLines
  match pyMaxByLen (pySplitWs (metaLines.getLastD [])) with
  | none => none
  | some atlusUrl =>
    let figMentionDic := extractImageNamesAndMentions latexLines figMatchAt figIdentifier
    let tableMentionDic := extractImageNamesAndMentions latexLines tableMatchAt tableIdentifier
    let combinedMentionDic := pyDictMerge figMentionDic tableMentionDic
    let mentions_text := combinedMentionDic.map (fun p => (p.1, p.2.map (preprocess_text pandoc)))
    some (combinedMentionDic.map (fun p =>
      { name := p.1, mentions := mentions_text, atlusUrl := atlusUrl,
        paper := paper, paperName := paperName }))

/-!
## Harvester (`scrapeCDS.py`)
-/

/-- `min_of_list(values)`: minimum ignoring `None`, `-1` when nothing
remains. -/
def min_of_list (values : List (Option Int)) : Int :=
  let filtered := values.filterMap id
  match filtered with
  | [] => -1
  | x :: xs => xs.foldl min x

def is_atlas_link (link : Str) : Bool := containsSub link (strOf "atlas.web.cern.ch/Atlas")

def is_cms_link (link : Str) : Bool := containsSub link (strOf "cms-results.web.cern.ch/cms-results")

def is_cds_Figure_link (link : Str) : Bool :=
  containsSub link (strOf "cds.cern.ch/record") && containsSub link (strOf "Figure")

/-- The first tag of the CDS record page's first `<a>` under the `Note`
row, when the lookup chain `note item → parent row → link tag` succeeds;
the inner `Option` is the tag's `href` attribute (`link_tag.get('href')`
returns Python `None` when absent). -/
structure NoteRow where
  linkTag : Option (Option Str)
deriving DecidableEq

structure NoteItem where
  parentRow : Option NoteRow
deriving DecidableEq

/-- The parts of a parsed CDS record page (`BeautifulSoup` object) read by
`get_plot_location` and `download_pdf`: the `Note` row lookup, the `href`
values of all `<a>` tags in document order (`none` for a tag without
`href`), the contents of the `og:image`/`og:image:secure_url` meta tags,
the `citation_pdf_url` meta content, and the technical-report numbers. -/
structure Soup where
  note : Option NoteItem
  links : List (Option Str)
  ogImages : List Str
  citationPdfUrl : Option Str
  techReports : List Str
deriving DecidableEq

/-- `soup.find('a', href=lambda href: href and p(href))`: the first link
that has an `href` satisfying `p`. -/
def findLink (p : Str → Bool) (links : List (Option Str)) : Option Str :=
  (links.find? (fun l => match l with | some h => p h | none => false)).bind id

/-- Python `s.split("/")[-1][:-4]` — the last path component with the last
four characters removed. -/
def pdfNameOf (pdfUrl : Str) : Str :=
  let last := (pySplitOn (strOf "/") pdfUrl).getLastD []
  last.take (last.length - 4)

def paperUrlOf (pdfName : Str) : Str :=
  strOf "https://atlas.web.cern.ch/Atlas/GROUPS/PHYSICS/PAPERS/" ++ pdfName

/-- The target path `f"{paper_folder}/{pdf_name}.pdf"` of `download_pdf`. -/
def fullPathOf (paper_folder pdf_url : Str) : Str :=
  paper_folder ++ strOf "/" ++ pdfNameOf pdf_url ++ strOf ".pdf"

/-- `get_plot_location(soup, url)`, written with the source's nested
early-return structure.  The result is a Python value: `some s` a string
(`"None"` being the explicit not-found marker), `none` Python `None`
(reachable only through a `Note` link tag without `href`).  `httpOk` is
the oracle for `requests.get(...).status_code == 200`. -/
def get_plot_location (soup : Soup) (url : Str) (httpOk : Str → Bool) : Option Str :=
  match (soup.note.bind (fun n => n.parentRow)).bind (fun r => r.linkTag) with
  | some href => href
  | none =>
    match findLink is_atlas_link soup.links with
    | some h => some h
    | none =>
      match findLink is_cms_link soup.links with
      | some h => some h
      | none =>
        if (soup.ogImages.filter is_cds_Figure_link).length > 0 then some url
        else
          match soup.citationPdfUrl with
          | some pdf_url =>
            let pdf_name := pdfNameOf pdf_url
            if containsSub pdf_name (strOf "PAPER") then
              let n1 := pyReplace pdf_name (strOf "ANA-") (strOf "")
              let n2 := pyReplace n1 (strOf "-PAPER.pdf") (strOf "")
              let maybe_url := paperUrlOf n2
              if httpOk maybe_url then some maybe_url else some (strOf "None")
            else some (strOf "None")
          | none => some (strOf "None")

/-- The spec's description of the resolver as an ordered list of
independent probes.  A probe returns `none` when it declines and
`some r` when it fires with the Python value `r`. -/
def probeNote (soup : Soup) (_ : Str) (_ : Str → Bool) : Option (Option Str) :=
  (soup.note.bind (fun n => n.parentRow)).bind (fun r => r.linkTag)

def probeAtlas (soup : Soup) (_ : Str) (_ : Str → Bool) : Option (Option Str) :=
  (findLink is_atlas_link soup.links).map some

def probeCms (soup : Soup) (_ : Str) (_ : Str → Bool) : Option (Option Str) :=
  (findLink is_cms_link soup.links).map some

def probeCdsFigures (soup : Soup) (url : Str) (_ : Str → Bool) : Option (Option Str) :=
  if (soup.ogImages.filter is_cds_Figure_link).length > 0 then some (some url) else none

def probePaperName (soup : Soup) (_ : Str) (httpOk : Str → Bool) : Option (Option Str) :=
  match soup.citationPdfUrl with
  | some pdf_url =>
    let pdf_name := pdfNameOf pdf_url
    if containsSub pdf_name (strOf "PAPER") then
      let cand := paperUrlOf (pyReplace (pyReplace pdf_name (strOf "ANA-") (strOf ""))
        (strOf "-PAPER.pdf") (strOf ""))
      if httpOk cand then some (some cand) else none
    else none
  | none => none

/-- Modelled from the spec (section 4.3 and the design note): the resolver
as an explicit ordered sequence of probe functions, short-circuiting on
the first that fires, with the explicit `"None"` marker as the final
fallback. -/
def plotLocationChain (soup : Soup) (url : Str) (httpOk : Str → Bool) : Option Str :=
  (([probeNote, probeAtlas, probeCms, probeCdsFigures, probePaperName].foldl
    (fun acc p => match acc with
      | some r => some r
      | none => p soup url httpOk) none)).getD (some (strOf "None"))

/-!
### Dates (`datetime.strptime(..., "%Y-%m-%d")` and `datetime` comparison)
-/

structure PyDate where
  y : Nat
  m : Nat
  d : Nat
deriving DecidableEq

def isLeap (y : Nat) : Bool := y % 4 = 0 && (y % 100 ≠ 0 || y % 400 = 0)

def daysInMonth (y m : Nat) : Nat :=
  if m = 2 then (if isLeap y then 29 else 28)
  else if m = 4 || m = 6 || m = 9 || m = 11 then 30 else 31

def allDigits (s : Str) : Bool := !s.isEmpty && s.all Char.isDigit

def digitsToNat (s : Str) : Nat := s.foldl (fun a c => a * 10 + (c.toNat - '0'.toNat)) 0

/-- `datetime.strptime(s, "%Y-%m-%d")`: a four-digit year, a one- or
two-digit month in 1..12, a one- or two-digit day valid for that month and
year; `none` models the `ValueError` raised on anything else. -/
def parseDate (s : Str) : Option PyDate :=
  match pySplitOn (strOf "-") s with
  | [ys, ms, ds] =>
    if allDigits ys && ys.length = 4 && allDigits ms && decide (ms.length ≤ 2)
        && allDigits ds && decide (ds.length ≤ 2) then
      let y := digitsToNat ys
      let m := digitsToNat ms
      let d := digitsToNat ds
      if 1 ≤ y && 1 ≤ m && m ≤ 12 && 1 ≤ d && d ≤ daysInMonth y m then
        some ⟨y, m, d⟩
      else none
    else none
  | _ => none

/-- `datetime` comparison restricted to dates: lexicographic on
(year, month, day). -/
def dateLtB (a b : PyDate) : Bool :=
  a.y < b.y || (a.y = b.y && (a.m < b.m || (a.m = b.m && a.d < b.d)))

/-!
### Modification tracking (the `updated` computation of `write_to_db`)
-/

/-- The saved date extracted from the metadata file: the first line
starting with `LAST MODIFICATION DATE :`, then `line.split(":")[1].strip()`. -/
def savedDateOf (lines : List Str) : Option Str :=
  (lines.find? (startsWithSeq (strOf "LAST MODIFICATION DATE :"))).map
    (fun line => pyStrip ((pySplitOn (strOf ":") line).getD 1 []))

/-- The `updated` flag of `write_to_db` for one document: `true` when no
metadata file exists or it holds no stored date; otherwise the stored and
fetched dates are parsed — an unparsable one raises (`Except.error` with
the offending string) — and `updated` is `true` iff the fetched date is
strictly later. -/
def computeUpdated (metaFile : Option (List Str)) (fetchedDate : Str) : Except Str Bool :=
  match metaFile with
  | none => .ok true
  | some lines =>
    match savedDateOf lines with
    | none => .ok true
    | some sd =>
      match parseDate sd with
      | none => .error sd
      | some saved_date_dt =>
        match parseDate fetchedDate with
        | none => .error fetchedDate
        | some new_date_dt => .ok (dateLtB saved_date_dt new_date_dt)

/-!
### `download_pdf`
-/

/-- Result and observable effects of one `download_pdf` call: the returned
triple, the file system afterwards (a list of existing paths), the number
of PDF-body GET requests issued, and the number of record-page GET
requests issued. -/
structure FetchOut where
  path : Option Str
  techReports : List Str
  plotLoc : Option Str
  fsAfter : List Str
  bodyDownloads : Nat
  pageFetches : Nat
deriving DecidableEq

/-- `download_pdf(url, paper_folder, overwrite)`.  The record page is
always fetched once.  Without a `citation_pdf_url` meta tag the result is
the empty triple `(None, [], "None")`.  Otherwise the target path is
`paper_folder/<pdf_name>.pdf`; an existing file is returned as is unless
`overwrite` (in which case it is removed first), and the body is fetched
with success governed by the `httpOk` oracle. -/
def download_pdf (url paper_folder : Str) (overwrite : Bool) (soup : Soup)
    (fs : List Str) (httpOk : Str → Bool) : FetchOut :=
  match soup.citationPdfUrl with
  | none => ⟨none, [], some (strOf "None"), fs, 0, 1⟩
  | some pdf_url =>
    let full_path := fullPathOf paper_folder pdf_url
    let tech := soup.techReports
    let plot := get_plot_location soup url httpOk
    if full_path ∈ fs && !overwrite then ⟨some full_path, tech, plot, fs, 0, 1⟩
    else
      let fs1 := if full_path ∈ fs && overwrite then fs.erase full_path else fs
      if httpOk pdf_url then ⟨some full_path, tech, plot, full_path :: fs1, 1, 1⟩
      else ⟨none, tech, plot, fs1, 1, 1⟩

/-!
### Page-bound computation (`find_key_in_pdf`, `extract_text`)
-/

/-- The test `if text and keyword in text` of `find_key_in_pdf`: the
extracted page text is truthy and contains the keyword. -/
def pageHit (keyword text : Str) : Bool := !text.isEmpty && containsSub text keyword

/-- Scan of `find_key_in_pdf`: `for page_num in range(len-1, -1, -1)`,
returning `page_num + 1` for the first page (from the end) whose extracted
text is non-empty and contains the keyword.  `go (i+1)` examines index `i`. -/
def findKeyGo (pages : List Str) (keyword : Str) : Nat → Option Int
  | 0 => none
  | i + 1 =>
    if pageHit keyword (pages.getD i []) then some (Int.ofNat (i + 1))
    else findKeyGo pages keyword i

/-- `find_key_in_pdf(file, keyword)` on the extracted page texts (`pages`,
front to back; an empty page text models `extract_text()` returning a
falsy value). -/
def find_key_in_pdf (pages : List Str) (keyword : Str) : Option Int :=
  findKeyGo pages keyword pages.length

/-- The command line built by `extract_text`: `-p 1-<n>` is appended
exactly when the page bound is not the `-1` sentinel. -/
def nougatCmd (file output_directory : Str) (page_to_stop : Int) : List Str :=
  [strOf "nougat", file, strOf "-o", output_directory]
    ++ (if page_to_stop ≠ -1 then
      [strOf "-p", strOf "1-" ++ strOf (toString page_to_stop)] else [])

/-!
### The per-document block of `write_to_db` and the crawl loop
-/

/-- `url_to_folder_name(url)`: `re.search(r'record/(\d+)', url)` — the
first occurrence of `record/` that is followed by at least one digit. -/
def url_to_folder_name (url : Str) : Str :=
  match (List.range (url.length + 1)).find?
      (fun i => subAt (strOf "record/") url i && decide (0 < digitRun url (i + 7))) with
  | some i => strOf "CDS_Record_" ++ (url.drop (i + 7)).takeWhile Char.isDigit
  | none => strOf "Invalid_URL"

/-- Per-document inputs of one iteration of the crawl loop: the link and
title from the listing page, the fetched modification date, the current
content of the document's `meta_info.txt` (if any), the parsed record
page, whether `document.mmd` already exists, and the outcome of the body
of the `try` block around the page-bound computation and nougat invocation
(`Except.error` models any exception raised there). -/
structure DocCtx where
  link : Str
  title : Str
  fetchedDate : Str
  metaFile : Option (List Str)
  soup : Soup
  mmdExists : Bool
  extractOutcome : Except Str Unit

/-- Observable effects of one loop iteration. -/
structure DocEffects where
  failures : List Str
  metaWritten : Option (List Str)
  bodyDownloads : Nat
  extractionCompleted : Bool
  mmdRemoved : Bool
  fsAfter : List Str
deriving DecidableEq

/-- The metadata file content written by `write_to_db`. -/
def metaContent (title fetchedDate link collection : Str) (tech : List Str)
    (plot : Option Str) : List Str :=
  [ strOf "PAPER NAME : " ++ pyReplace title (strOf "\n") (strOf ""),
    strOf "LAST MODIFICATION DATE : " ++ fetchedDate,
    strOf "URL : " ++ pyReplace link (strOf "\n") (strOf ""),
    strOf "COLLECTION : " ++ pyReplace collection (strOf " ") (strOf "_"),
    strOf "TECH REP NUM: " ++ strJoin (strOf ", ") tech,
    strOf "PLOT LOC: " ++ (match plot with | some s => s | none => strOf "None") ]

/-- One iteration of the per-document loop of `write_to_db` (lines
351–428 of `scrapeCDS.py`): compute `updated` (a date-parse failure
propagates as `Except.error`), call `download_pdf`, on a missing download
reference append the link to the failure list and continue, otherwise
conditionally rewrite the metadata file, decide `mmd_update`, and run the
guarded extraction block whose exceptions are caught and recorded as
failures. -/
def processDocument (overwrite run_nougat : Bool) (collection : Str) (httpOk : Str → Bool)
    (fs : List Str) (paperFolder : Str) (d : DocCtx) : Except Str DocEffects := do
  let updated ← computeUpdated d.metaFile d.fetchedDate
  let pdf_overwrite := overwrite && updated
  let r := download_pdf d.link paperFolder pdf_overwrite d.soup fs httpOk
  match r.path with
  | none => .ok ⟨[d.link], none, r.bodyDownloads, false, false, r.fsAfter⟩
  | some _ =>
    let metaW := if updated || overwrite then
      some (metaContent d.title d.fetchedDate d.link collection r.techReports r.plotLoc)
    else none
    let mmd_update := if d.mmdExists then run_nougat && overwrite else run_nougat
    let mmdRem := d.mmdExists && (run_nougat && overwrite)
    if mmd_update then
      match d.extractOutcome with
      | .ok _ => .ok ⟨[], metaW, r.bodyDownloads, true, mmdRem, r.fsAfter⟩
      | .error _ => .ok ⟨[d.link], metaW, r.bodyDownloads, false, mmdRem, r.fsAfter⟩
    else .ok ⟨[], metaW, r.bodyDownloads, false, mmdRem, r.fsAfter⟩

/-- The crawl loop over the documents of a run, threading the file system
and collecting the failure list in order.  An `Except.error` raised by an
iteration propagates: no later document is processed. -/
def runDocs (overwrite run_nougat : Bool) (collection base_dir : Str)
    (httpOk : Str → Bool) : List Str → List DocCtx → Except Str (List Str)
  | _, [] => .ok []
  | fs, d :: rest => do
    let eff ← processDocument overwrite run_nougat collection httpOk fs
      (base_dir ++ strOf "/" ++ url_to_folder_name d.link) d
    let more ← runDocs overwrite run_nougat collection base_dir httpOk eff.fsAfter rest
    .ok (eff.failures ++ more)

/-!
## Theorems
-/

lemma maxStep_foldl (l : List Str) : ∀ b t : Str, l.foldl maxStep (some b) = some t →
    (t = b ∧ ∀ u ∈ l, u.length ≤ b.length) ∨
    (∃ pre post, l = pre ++ t :: post ∧ b.length < t.length ∧
      (∀ u ∈ pre, u.length < t.length) ∧ (∀ u ∈ post, u.length ≤ t.length)) := by
  induction l with
  | nil =>
    intro b t h
    simp only [List.foldl_nil, Option.some.injEq] at h
    exact Or.inl ⟨h.symm, by simp⟩
  | cons x xs ih =>
    intro b t h
    simp only [List.foldl_cons, maxStep] at h
    by_cases hx : x.length > b.length
    · rw [if_pos hx] at h
      rcases ih x t h with ⟨ht, hall⟩ | ⟨pre, post, hl, hb, hpre, hpost⟩
      · refine Or.inr ⟨[], xs, by simp [ht], ht ▸ hx, by simp, fun u hu => ht ▸ hall u hu⟩
      · refine Or.inr ⟨x :: pre, post, by simp [hl], Nat.lt_trans hx hb, ?_, hpost⟩
        intro u hu
        rcases List.mem_cons.mp hu with rfl | hu
        · exact hb
        · exact hpre u hu
    · rw [if_neg hx] at h
      rcases ih b t h with ⟨ht, hall⟩ | ⟨pre, post, hl, hb, hpre, hpost⟩
      · refine Or.inl ⟨ht, fun u hu => ?_⟩
        rcases List.mem_cons.mp hu with rfl | hu
        · exact Nat.le_of_not_lt hx
        · exact hall u hu
      · refine Or.inr ⟨x :: pre, post, by simp [hl], hb, ?_, hpost⟩
        intro u hu
        rcases List.mem_cons.mp hu with rfl | hu
        · exact Nat.lt_of_le_of_lt (Nat.le_of_not_lt hx) hb
        · exact hpre u hu

/-- `pyMaxByLen` returns the first element of maximal length: the list
splits as `pre ++ t :: post` with everything before `t` strictly shorter
and everything after no longer. -/
lemma pyMaxByLen_firstLongest {l : List Str} {t : Str} (h : pyMaxByLen l = some t) :
    ∃ pre post, l = pre ++ t :: post ∧ (∀ u ∈ pre, u.length < t.length) ∧
      (∀ u ∈ post, u.length ≤ t.length) := by
  cases l with
  | nil => simp [pyMaxByLen] at h
  | cons x xs =>
    have h' : xs.foldl maxStep (some x) = some t := by
      simpa [pyMaxByLen, maxStep] using h
    rcases maxStep_foldl xs x t h' with ⟨ht, hall⟩ | ⟨pre, post, hl, hb, hpre, hpost⟩
    · exact ⟨[], xs, by simp [ht], by simp, fun u hu => ht ▸ hall u hu⟩
    · refine ⟨x :: pre, post, by simp [hl], ?_, hpost⟩
      intro u hu
      rcases List.mem_cons.mp hu with rfl | hu
      · exact hb
      · exact hpre u hu

/-- C4: on the single line
`"As shown in Fig. 3, the cross section rises. Other text."` the mention
extractor produces exactly the key `"Figure 3"` with the single context
string `"As shown in Fig. 3, the cross section rises"` (text from the
line start through the matched citation to the nearest following
period-plus-space boundary), and no table mention. -/
theorem mention_extractor_fig3_line :
    extractImageNamesAndMentions
        [strOf "As shown in Fig. 3, the cross section rises. Other text."] figMatchAt figIdentifier
      = [(strOf "Figure 3", [strOf "As shown in Fig. 3, the cross section rises"])] ∧
    extractImageNamesAndMentions
        [strOf "As shown in Fig. 3, the cross section rises. Other text."] tableMatchAt tableIdentifier
      = [] := by
  constructor <;> decide

/-- C10: the `atlusUrl` value written into every output record of
`process_directory` is the longest whitespace-separated token of the last
metadata line, ties broken by first occurrence — it is not parsed from the
`PLOT LOC:` label; in particular, when the last line is
`"PLOT LOC: None"` every record carries the literal token `"PLOT"`. -/
theorem atlusUrl_is_first_longest_token :
    (∀ pandoc latexLines metaLines paper records,
        process_directory pandoc latexLines metaLines paper = some records →
        ∀ r ∈ records, ∃ pre post,
          pySplitWs (metaLines.getLastD []) = pre ++ r.atlusUrl :: post ∧
          (∀ u ∈ pre, u.length < r.atlusUrl.length) ∧
          (∀ u ∈ post, u.length ≤ r.atlusUrl.length)) ∧
    (∀ pandoc latexLines metaLines paper records,
        metaLines.getLastD [] = strOf "PLOT LOC: None" →
        process_directory pandoc latexLines metaLines paper = some records →
        ∀ r ∈ records, r.atlusUrl = strOf "PLOT") := by
  have key : ∀ pandoc latexLines metaLines paper records,
      process_directory pandoc latexLines metaLines paper = some records →
      ∀ r ∈ records, pyMaxByLen (pySplitWs (metaLines.getLastD [])) = some r.atlusUrl := by
    intro pandoc latexLines metaLines paper records h r hr
    unfold process_directory at h
    rcases hm : pyMaxByLen (pySplitWs (metaLines.getLastD [])) with _ | a
    · rw [hm] at h; exact absurd h (by simp)
    · rw [hm] at h
      simp only [Option.some.injEq] at h
      subst h
      rcases List.mem_map.mp hr with ⟨p, _, rfl⟩
      rfl
  constructor
  · intro pandoc latexLines metaLines paper records h r hr
    exact pyMaxByLen_firstLongest (key pandoc latexLines metaLines paper records h r hr)
  · intro pandoc latexLines metaLines paper records hlast h r hr
    have := key pandoc latexLines metaLines paper records h r hr
    rw [hlast] at this
    have hv : pyMaxByLen (pySplitWs (strOf "PLOT LOC: None")) = some (strOf "PLOT") := by decide
    rw [hv] at this
    exact (Option.some.injEq _ _ ▸ this).symm

theorem atlusUrl_plot_witness :
    ∃ records, process_directory (fun _ => none) [strOf "see Fig. 1."]
        [strOf "PLOT LOC: None"] (strOf "P") = some records
      ∧ ∀ r ∈ records, r.atlusUrl = strOf "PLOT" := by
  have h : process_directory (fun _ => none) [strOf "see Fig. 1."]
      [strOf "PLOT LOC: None"] (strOf "P")
      = some [{ name := strOf "Figure 1",
                mentions := [(strOf "Figure 1", [strOf "see Fig. 1."])],
                atlusUrl := strOf "PLOT", paper := strOf "P", paperName := none }] := by decide
  exact ⟨_, h, atlusUrl_is_first_longest_token.2 (fun _ => none) [strOf "see Fig. 1."]
    [strOf "PLOT LOC: None"] (strOf "P") _ (by decide) h⟩

/-- C2: the needs-refresh decision (`updated` in `write_to_db`) is `true`
when no metadata file exists, `true` when the file holds no stored date
line, and otherwise — both dates parsing — `true` exactly when the
fetched date is strictly later than the stored one as calendar dates;
equal or earlier fetched dates give `false` (last conjunct: `dateLtB`
is false exactly on equal-or-earlier pairs). -/
theorem modification_tracker_policy :
    (∀ fetched, computeUpdated none fetched = .ok true) ∧
    (∀ lines fetched, savedDateOf lines = none →
      computeUpdated (some lines) fetched = .ok true) ∧
    (∀ lines fetched s sdt fdt, savedDateOf lines = some s → parseDate s = some sdt →
      parseDate fetched = some fdt →
      computeUpdated (some lines) fetched = .ok (dateLtB sdt fdt)) ∧
    (∀ a b : PyDate, dateLtB a b = false ↔ (b = a ∨ dateLtB b a = true)) := by
  refine ⟨fun _ => rfl, ?_, ?_, ?_⟩
  · intro lines fetched h
    simp [computeUpdated, h]
  · intro lines fetched s sdt fdt h1 h2 h3
    simp [computeUpdated, h1, h2, h3]
  · intro a b
    rcases a with ⟨ay, am, ad⟩
    rcases b with ⟨ey, em, ed⟩
    simp [dateLtB, PyDate.mk.injEq]
    omega

theorem modification_tracker_witness :
    savedDateOf [strOf "LAST MODIFICATION DATE : 2023-05-01"] = some (strOf "2023-05-01") ∧
    computeUpdated (some [strOf "LAST MODIFICATION DATE : 2023-05-01"]) (strOf "2023-05-02")
      = .ok true ∧
    computeUpdated (some [strOf "LAST MODIFICATION DATE : 2023-05-01"]) (strOf "2023-05-01")
      = .ok false :=
  ⟨by decide,
    modification_tracker_policy.2.2.1 [strOf "LAST MODIFICATION DATE : 2023-05-01"]
      (strOf "2023-05-02") (strOf "2023-05-01") ⟨2023, 5, 1⟩ ⟨2023, 5, 2⟩
      (by decide) (by decide) (by decide),
    modification_tracker_policy.2.2.1 [strOf "LAST MODIFICATION DATE : 2023-05-01"]
      (strOf "2023-05-01") (strOf "2023-05-01") ⟨2023, 5, 1⟩ ⟨2023, 5, 1⟩
      (by decide) (by decide) (by decide)⟩

/-- A minimal CDS record page used in the date-failure scenarios. -/
def plainSoup : Soup :=
  { note := none, links := [], ogImages := [],
    citationPdfUrl := some (strOf "https://cds.cern.ch/record/1/files/x.pdf"),
    techReports := [] }

/-- A document whose stored metadata date does not parse. -/
def badDateDoc : DocCtx :=
  { link := strOf "https://cds.cern.ch/record/1", title := strOf "T",
    fetchedDate := strOf "2024-01-02",
    metaFile := some [strOf "LAST MODIFICATION DATE : not-a-date"],
    soup := plainSoup, mmdExists := false, extractOutcome := .ok () }

/-- A well-formed first-encounter document, queued after the bad one. -/
def freshDoc : DocCtx :=
  { link := strOf "https://cds.cern.ch/record/2", title := strOf "T2",
    fetchedDate := strOf "2024-01-02", metaFile := none,
    soup := plainSoup, mmdExists := false, extractOutcome := .ok () }

/-- C1 is false on the code: with a document whose stored date is
unparsable followed by a healthy document, the crawl loop does not skip
and continue — the whole run aborts with the date error, the healthy
document unprocessed (`.error`, not an `.ok` failure list). -/
theorem date_parse_failure_counterexample :
    runDocs false false (strOf "C") (strOf "db") (fun _ => true) [] [badDateDoc, freshDoc]
      = .error (strOf "not-a-date") := by
  rfl

/-- C1 (amended): an unparsable stored or fetched modification date is not
confined to its document — `write_to_db` parses dates outside any
try/except, so the exception propagates out of the crawl loop: the run
aborts with that error and no later document is processed. -/
theorem date_parse_failure_halts :
    (∀ ow rn coll bd ok fs (d : DocCtx) rest lines s,
      d.metaFile = some lines → savedDateOf lines = some s → parseDate s = none →
      runDocs ow rn coll bd ok fs (d :: rest) = .error s) ∧
    (∀ ow rn coll bd ok fs (d : DocCtx) rest lines s sdt,
      d.metaFile = some lines → savedDateOf lines = some s → parseDate s = some sdt →
      parseDate d.fetchedDate = none →
      runDocs ow rn coll bd ok fs (d :: rest) = .error d.fetchedDate) := by
  constructor
  · intro ow rn coll bd ok fs d rest lines s h1 h2 h3
    simp only [runDocs, processDocument, computeUpdated, h1, h2, h3]
    rfl
  · intro ow rn coll bd ok fs d rest lines s sdt h1 h2 h3 h4
    simp only [runDocs, processDocument, computeUpdated, h1, h2, h3, h4]
    rfl

theorem date_parse_failure_halts_witness :
    badDateDoc.metaFile = some [strOf "LAST MODIFICATION DATE : not-a-date"] ∧
    savedDateOf [strOf "LAST MODIFICATION DATE : not-a-date"] = some (strOf "not-a-date") ∧
    parseDate (strOf "not-a-date") = none ∧
    runDocs true true (strOf "C") (strOf "db") (fun _ => false) [] [badDateDoc]
      = .error (strOf "not-a-date") :=
  ⟨rfl, by decide, by decide,
    date_parse_failure_halts.1 true true (strOf "C") (strOf "db") (fun _ => false) []
      badDateDoc [] [strOf "LAST MODIFICATION DATE : not-a-date"] (strOf "not-a-date")
      rfl (by decide) (by decide)⟩

lemma except_ok_bind {ε α β : Type} (a : α) (f : α → Except ε β) :
    (Except.ok a : Except ε α) >>= f = f a := rfl

/-- `download_pdf` on a page without a `citation_pdf_url` meta tag: the
empty result, no file-body request, file system untouched. -/
lemma download_pdf_no_meta (url folder : Str) (ow : Bool) (soup : Soup) (fs : List Str)
    (ok : Str → Bool) (h : soup.citationPdfUrl = none) :
    download_pdf url folder ow soup fs ok = ⟨none, [], some (strOf "None"), fs, 0, 1⟩ := by
  simp [download_pdf, h]

/-- C3: (1) a fetch that finds no extractable download reference returns
the empty result — no path, empty report list, the `"None"` marker; (2) in
that case the per-document step appends the source URL to the failure list,
writes no metadata, and returns normally (`.ok`); (3) an exception raised
inside the extraction block is caught and recorded as a failure, again
returning normally; (4) any iteration that returns normally lets the crawl
loop continue with the remaining documents, only prepending its failures. -/
theorem per_document_failure_isolation :
    (∀ url folder ow (soup : Soup) fs ok, soup.citationPdfUrl = none →
      download_pdf url folder ow soup fs ok = ⟨none, [], some (strOf "None"), fs, 0, 1⟩) ∧
    (∀ ow rn coll ok fs folder (d : DocCtx) u,
      computeUpdated d.metaFile d.fetchedDate = .ok u → d.soup.citationPdfUrl = none →
      processDocument ow rn coll ok fs folder d = .ok ⟨[d.link], none, 0, false, false, fs⟩) ∧
    (∀ ow rn coll ok fs folder (d : DocCtx) u p e,
      computeUpdated d.metaFile d.fetchedDate = .ok u →
      (download_pdf d.link folder (ow && u) d.soup fs ok).path = some p →
      (if d.mmdExists then rn && ow else rn) = true →
      d.extractOutcome = .error e →
      ∃ eff, processDocument ow rn coll ok fs folder d = .ok eff ∧
        eff.failures = [d.link] ∧ eff.extractionCompleted = false) ∧
    (∀ ow rn coll bd ok fs (d : DocCtx) rest eff,
      processDocument ow rn coll ok fs (bd ++ strOf "/" ++ url_to_folder_name d.link) d
        = .ok eff →
      runDocs ow rn coll bd ok fs (d :: rest)
        = (runDocs ow rn coll bd ok eff.fsAfter rest).map (fun more => eff.failures ++ more)) := by
  refine ⟨download_pdf_no_meta, ?_, ?_, ?_⟩
  · intro ow rn coll ok fs folder d u h1 h2
    simp only [processDocument, h1, except_ok_bind,
      download_pdf_no_meta d.link folder (ow && u) d.soup fs ok h2]
  · intro ow rn coll ok fs folder d u p e h1 h2 h3 h4
    simp only [processDocument, h1, except_ok_bind]
    rw [h2, h3, h4]
    exact ⟨_, rfl, rfl, rfl⟩
  · intro ow rn coll bd ok fs d rest eff h
    simp only [runDocs, h, except_ok_bind]
    cases hr : runDocs ow rn coll bd ok eff.fsAfter rest with
    | ok more => rfl
    | error err => rfl

theorem per_document_failure_witness :
    ((⟨none, [], [], none, []⟩ : Soup).citationPdfUrl = none) ∧
    download_pdf (strOf "u") (strOf "d") false ⟨none, [], [], none, []⟩ [] (fun _ => true)
      = ⟨none, [], some (strOf "None"), [], 0, 1⟩ ∧
    processDocument false false (strOf "C") (fun _ => true) [] (strOf "d")
        { link := strOf "u", title := strOf "t", fetchedDate := strOf "2024-01-02",
          metaFile := none, soup := ⟨none, [], [], none, []⟩, mmdExists := false,
          extractOutcome := .ok () }
      = .ok ⟨[strOf "u"], none, 0, false, false, []⟩ :=
  ⟨rfl,
    per_document_failure_isolation.1 (strOf "u") (strOf "d") false ⟨none, [], [], none, []⟩
      [] (fun _ => true) rfl,
    per_document_failure_isolation.2.1 false false (strOf "C") (fun _ => true) [] (strOf "d")
      { link := strOf "u", title := strOf "t", fetchedDate := strOf "2024-01-02",
        metaFile := none, soup := ⟨none, [], [], none, []⟩, mmdExists := false,
        extractOutcome := .ok () } true rfl rfl⟩

/-- C8: when the target file already exists and no overwrite is requested,
`download_pdf` returns the existing path with zero file-body downloads
(the record page still being fetched once); consequently two consecutive
calls without overwrite on an unchanged source, starting without the file,
return the same local path both times and perform exactly one file-body
download in total, with one page fetch per call. -/
theorem document_fetcher_idempotent :
    (∀ url folder (soup : Soup) fs ok pu, soup.citationPdfUrl = some pu →
      fullPathOf folder pu ∈ fs →
      download_pdf url folder false soup fs ok
        = ⟨some (fullPathOf folder pu), soup.techReports,
            get_plot_location soup url ok, fs, 0, 1⟩) ∧
    (∀ url folder (soup : Soup) fs ok pu, soup.citationPdfUrl = some pu →
      fullPathOf folder pu ∉ fs → ok pu = true →
      (download_pdf url folder false soup fs ok).path = some (fullPathOf folder pu) ∧
      (download_pdf url folder false soup fs ok).bodyDownloads = 1 ∧
      (download_pdf url folder false soup fs ok).pageFetches = 1 ∧
      (download_pdf url folder false soup
          (download_pdf url folder false soup fs ok).fsAfter ok).path
        = some (fullPathOf folder pu) ∧
      (download_pdf url folder false soup
          (download_pdf url folder false soup fs ok).fsAfter ok).bodyDownloads = 0 ∧
      (download_pdf url folder false soup
          (download_pdf url folder false soup fs ok).fsAfter ok).pageFetches = 1) := by
  constructor
  · intro url folder soup fs ok pu h1 h2
    simp only [download_pdf, h1]
    simp [h2]
  · intro url folder soup fs ok pu h1 h2 h3
    have hfirst : download_pdf url folder false soup fs ok
        = ⟨some (fullPathOf folder pu), soup.techReports, get_plot_location soup url ok,
            fullPathOf folder pu :: fs, 1, 1⟩ := by
      simp only [download_pdf, h1]
      simp [h2, h3]
    have hsnd : download_pdf url folder false soup (fullPathOf folder pu :: fs) ok
        = ⟨some (fullPathOf folder pu), soup.techReports, get_plot_location soup url ok,
            fullPathOf folder pu :: fs, 0, 1⟩ := by
      simp only [download_pdf, h1]
      simp [List.mem_cons]
    rw [hfirst]
    refine ⟨rfl, rfl, rfl, ?_, ?_, ?_⟩ <;> simp [hsnd]

theorem document_fetcher_witness :
    ((⟨none, [], [], some (strOf "r/x.pdf"), []⟩ : Soup).citationPdfUrl
      = some (strOf "r/x.pdf")) ∧
    fullPathOf (strOf "d") (strOf "r/x.pdf") ∉ ([] : List Str) ∧
    (download_pdf (strOf "u") (strOf "d") false ⟨none, [], [], some (strOf "r/x.pdf"), []⟩
        [] (fun _ => true)).path = some (fullPathOf (strOf "d") (strOf "r/x.pdf")) ∧
    (download_pdf (strOf "u") (strOf "d") false ⟨none, [], [], some (strOf "r/x.pdf"), []⟩
        [] (fun _ => true)).bodyDownloads = 1 ∧
    (download_pdf (strOf "u") (strOf "d") false ⟨none, [], [], some (strOf "r/x.pdf"), []⟩
        (download_pdf (strOf "u") (strOf "d") false ⟨none, [], [], some (strOf "r/x.pdf"), []⟩
          [] (fun _ => true)).fsAfter (fun _ => true)).path
      = some (fullPathOf (strOf "d") (strOf "r/x.pdf")) ∧
    (download_pdf (strOf "u") (strOf "d") false ⟨none, [], [], some (strOf "r/x.pdf"), []⟩
        (download_pdf (strOf "u") (strOf "d") false ⟨none, [], [], some (strOf "r/x.pdf"), []⟩
          [] (fun _ => true)).fsAfter (fun _ => true)).bodyDownloads = 0 := by
  have h := document_fetcher_idempotent.2 (strOf "u") (strOf "d")
    ⟨none, [], [], some (strOf "r/x.pdf"), []⟩ [] (fun _ => true) (strOf "r/x.pdf")
    rfl (by decide) rfl
  exact ⟨rfl, by decide, h.1, h.2.1, h.2.2.2.1, h.2.2.2.2.1⟩

/-- C9: for a document with at least two mention keys, `process_directory`
emits one record per key, the record names being exactly the keys; in the
serialized output every record carries the identical full mapping of all
keys to their normalized context sequences (the single shared
`mentions_text` dict at dump time), the same plot-location value, document
identifier and title — records differ only in `name`. -/
theorem record_assembler_denormalized :
    ∀ pandoc latexLines metaLines paper records combined,
      combined = pyDictMerge (extractImageNamesAndMentions latexLines figMatchAt figIdentifier)
        (extractImageNamesAndMentions latexLines tableMatchAt tableIdentifier) →
      process_directory pandoc latexLines metaLines paper = some records →
      2 ≤ combined.length →
      records.length = combined.length ∧
      records.map (fun r => r.name) = combined.map (fun p => p.1) ∧
      (∀ r ∈ records,
        r.mentions = combined.map (fun p => (p.1, p.2.map (preprocess_text pandoc))) ∧
        r.paper = paper ∧ r.paperName = extractPaperName metaLines) ∧
      (∀ r ∈ records, ∀ r2 ∈ records, r.mentions = r2.mentions ∧ r.atlusUrl = r2.atlusUrl ∧
        r.paper = r2.paper ∧ r.paperName = r2.paperName) := by
  intro pandoc latexLines metaLines paper records combined hcomb hproc _
  unfold process_directory at hproc
  rcases hm : pyMaxByLen (pySplitWs (metaLines.getLastD [])) with _ | a
  · rw [hm] at hproc
    exact absurd hproc (by simp)
  · rw [hm] at hproc
    simp only [Option.some.injEq] at hproc
    subst hproc
    subst hcomb
    refine ⟨by simp, by simp, ?_, ?_⟩
    · intro r hr
      rcases List.mem_map.mp hr with ⟨p, _, rfl⟩
      exact ⟨rfl, rfl, rfl⟩
    · intro r hr r2 hr2
      rcases List.mem_map.mp hr with ⟨p, _, rfl⟩
      rcases List.mem_map.mp hr2 with ⟨p2, _, rfl⟩
      exact ⟨rfl, rfl, rfl, rfl⟩

theorem record_assembler_witness :
    ∃ records, process_directory (fun _ => none) [strOf "see Fig. 1 and Table 2."]
        [strOf "PLOT LOC: None"] (strOf "P") = some records
      ∧ records.map (fun r => r.name) = [strOf "Figure 1", strOf "Table 2"]
      ∧ ∀ r ∈ records, ∀ r2 ∈ records, r.mentions = r2.mentions ∧ r.atlusUrl = r2.atlusUrl := by
  have h : process_directory (fun _ => none) [strOf "see Fig. 1 and Table 2."]
      [strOf "PLOT LOC: None"] (strOf "P")
      = some [{ name := strOf "Figure 1",
                mentions := [(strOf "Figure 1", [strOf "see Fig. 1 and Table 2."]),
                             (strOf "Table 2", [strOf "1 and Table 2."])],
                atlusUrl := strOf "PLOT", paper := strOf "P", paperName := none },
              { name := strOf "Table 2",
                mentions := [(strOf "Figure 1", [strOf "see Fig. 1 and Table 2."]),
                             (strOf "Table 2", [strOf "1 and Table 2."])],
                atlusUrl := strOf "PLOT", paper := strOf "P", paperName := none }] := by decide
  have hall := record_assembler_denormalized (fun _ => none)
    [strOf "see Fig. 1 and Table 2."] [strOf "PLOT LOC: None"] (strOf "P") _ _ rfl h
    (by decide)
  exact ⟨_, h, by decide, fun r hr r2 hr2 =>
    ⟨(hall.2.2.2 r hr r2 hr2).1, (hall.2.2.2 r hr r2 hr2).2.1⟩⟩

/-- C6: the plot-location resolver is exactly the spec's strict priority
chain — `Note`-section link, first ATLAS-domain link, first CMS-domain
link, the document's own URL when `og:image` previews point at the CDS
figure endpoint, the "...PAPER"-derived candidate URL accepted only on
HTTP success, and otherwise the explicit `"None"` marker. -/
theorem plot_location_priority_chain :
    ∀ (soup : Soup) url ok, get_plot_location soup url ok = plotLocationChain soup url ok := by
  intro soup url ok
  unfold get_plot_location plotLocationChain probeNote probeAtlas probeCms probeCdsFigures
    probePaperName
  cases h1 : (soup.note.bind fun n => n.parentRow).bind fun r => r.linkTag with
  | some href => simp [h1]
  | none =>
    cases h2 : findLink is_atlas_link soup.links with
    | some h => simp [h1, h2]
    | none =>
      cases h3 : findLink is_cms_link soup.links with
      | some h => simp [h1, h2, h3]
      | none =>
        by_cases h4 : (soup.ogImages.filter is_cds_Figure_link).length > 0
        · simp [h1, h2, h3, h4]
        · cases h5 : soup.citationPdfUrl with
          | none => simp [h1, h2, h3, h4, h5]
          | some pu =>
            by_cases h6 : containsSub (pdfNameOf pu) (strOf "PAPER") = true
            · by_cases h7 : ok (paperUrlOf (pyReplace (pyReplace (pdfNameOf pu)
                  (strOf "ANA-") (strOf "")) (strOf "-PAPER.pdf") (strOf ""))) = true
              · simp [h1, h2, h3, h4, h5, h6, h7]
              · simp [h1, h2, h3, h4, h5, h6, h7]
            · simp [h1, h2, h3, h4, h5, h6]

lemma findKeyGo_some_iff (pages : List Str) (keyword : Str) :
    ∀ n m, findKeyGo pages keyword n = some m ↔
      ∃ i, i < n ∧ m = Int.ofNat (i + 1) ∧ pageHit keyword (pages.getD i []) = true ∧
        ∀ j, i < j → j < n → pageHit keyword (pages.getD j []) = false := by
  intro n
  induction n with
  | zero => intro m; simp [findKeyGo]
  | succ k ih =>
    intro m
    have hstep : findKeyGo pages keyword (k + 1)
        = if pageHit keyword (pages.getD k []) then some (Int.ofNat (k + 1))
          else findKeyGo pages keyword k := rfl
    cases hk : pageHit keyword (pages.getD k []) with
    | true =>
      rw [hstep, hk, if_pos rfl]
      constructor
      · intro h
        refine ⟨k, Nat.lt_succ_self k, by simpa using h.symm, hk, ?_⟩
        intro j hj1 hj2
        omega
      · rintro ⟨i, hi1, hi2, hi3, hi4⟩
        rcases Nat.lt_or_ge i k with hik | hik
        · exact absurd ((hi4 k hik (Nat.lt_succ_self k)).symm.trans hk) Bool.false_ne_true
        · have : i = k := by omega
          subst this
          simpa using congrArg some hi2.symm
    | false =>
      rw [hstep, hk, if_neg (by simp)]
      rw [ih m]
      constructor
      · rintro ⟨i, hi1, hi2, hi3, hi4⟩
        refine ⟨i, Nat.lt_succ_of_lt hi1, hi2, hi3, ?_⟩
        intro j hj1 hj2
        rcases Nat.lt_or_ge j k with hjk | hjk
        · exact hi4 j hj1 hjk
        · have : j = k := by omega
          subst this
          exact hk
      · rintro ⟨i, hi1, hi2, hi3, hi4⟩
        have hik : i ≠ k := by
          intro h
          subst h
          exact absurd (hk.symm.trans hi3) Bool.false_ne_true
        refine ⟨i, by omega, hi2, hi3, fun j hj1 hj2 => hi4 j hj1 (by omega)⟩

lemma findKeyGo_none_iff (pages : List Str) (keyword : Str) :
    ∀ n, findKeyGo pages keyword n = none ↔
      ∀ j, j < n → pageHit keyword (pages.getD j []) = false := by
  intro n
  induction n with
  | zero => simp [findKeyGo]
  | succ k ih =>
    have hstep : findKeyGo pages keyword (k + 1)
        = if pageHit keyword (pages.getD k []) then some (Int.ofNat (k + 1))
          else findKeyGo pages keyword k := rfl
    cases hk : pageHit keyword (pages.getD k []) with
    | true =>
      rw [hstep, hk, if_pos rfl]
      constructor
      · intro h
        exact absurd h (by simp)
      · intro h
        exact absurd ((h k (Nat.lt_succ_self k)).symm.trans hk) Bool.false_ne_true
    | false =>
      rw [hstep, hk, if_neg (by simp)]
      rw [ih]
      constructor
      · intro h j hj1
        rcases Nat.lt_or_ge j k with hjk | hjk
        · exact h j hjk
        · have : j = k := by omega
          subst this
          exact hk
      · intro h j hj
        exact h j (Nat.lt_succ_of_lt hj)

/-- C7: `find_key_in_pdf` scans pages last to first and yields the
1-indexed number of the last keyword-bearing page — `some (i+1)` exactly
for the largest hit index `i`, `none` exactly when no page hits; the
harvester's bound is the minimum of the two results ignoring `none`, `-1`
when both are absent, and a `-1` bound makes `extract_text` build the
nougat command without any page-range flag, so every page is processed. -/
theorem page_range_finder_correct :
    (∀ pages keyword m, find_key_in_pdf pages keyword = some m ↔
      ∃ i, i < pages.length ∧ m = Int.ofNat (i + 1) ∧
        pageHit keyword (pages.getD i []) = true ∧
        ∀ j, i < j → j < pages.length → pageHit keyword (pages.getD j []) = false) ∧
    (∀ pages keyword, find_key_in_pdf pages keyword = none ↔
      ∀ j, j < pages.length → pageHit keyword (pages.getD j []) = false) ∧
    (∀ x y : Int, min_of_list [some x, some y] = min x y) ∧
    (∀ x : Int, min_of_list [some x, none] = x ∧ min_of_list [none, some x] = x) ∧
    min_of_list [none, none] = -1 ∧
    (∀ f o, nougatCmd f o (-1) = [strOf "nougat", f, strOf "-o", o]) ∧
    (∀ f o pages, find_key_in_pdf pages (strOf "References") = none →
      find_key_in_pdf pages (strOf "ACKNOWLEDGMENT") = none →
      nougatCmd f o (min_of_list [find_key_in_pdf pages (strOf "References"),
        find_key_in_pdf pages (strOf "ACKNOWLEDGMENT")])
        = [strOf "nougat", f, strOf "-o", o]) := by
  refine ⟨fun pages keyword m => findKeyGo_some_iff pages keyword pages.length m,
    fun pages keyword => findKeyGo_none_iff pages keyword pages.length,
    fun x y => rfl, fun x => ⟨rfl, rfl⟩, rfl, fun f o => by simp [nougatCmd], ?_⟩
  intro f o pages h1 h2
  rw [h1, h2]
  simp [nougatCmd, min_of_list]

theorem page_range_finder_witness :
    find_key_in_pdf [strOf "intro", strOf "References here", strOf "more"]
        (strOf "References") = some 2 ∧
    find_key_in_pdf [strOf "intro", strOf "References here", strOf "more"]
        (strOf "ACKNOWLEDGMENT") = none ∧
    nougatCmd (strOf "f.pdf") (strOf "out/")
        (min_of_list [find_key_in_pdf [strOf "intro"] (strOf "References"),
          find_key_in_pdf [strOf "intro"] (strOf "ACKNOWLEDGMENT")])
      = [strOf "nougat", strOf "f.pdf", strOf "-o", strOf "out/"] :=
  ⟨(page_range_finder_correct.1 [strOf "intro", strOf "References here", strOf "more"]
      (strOf "References") 2).mpr
      ⟨1, by decide, by decide, by decide,
        fun j hj1 hj2 => by
          have : j = 2 := by simpa using Nat.le_antisymm (Nat.lt_succ_iff.mp hj2) hj1
          subst this
          decide⟩,
    (page_range_finder_correct.2.1 [strOf "intro", strOf "References here", strOf "more"]
      (strOf "ACKNOWLEDGMENT")).mpr
      (fun j hj => by
        match j, hj with
        | 0, _ => decide
        | 1, _ => decide
        | 2, _ => decide),
    page_range_finder_correct.2.2.2.2.2.2 (strOf "f.pdf") (strOf "out/") [strOf "intro"]
      (by decide) (by decide)⟩

/-- A line "ends in the table-continuation marker" disregarding the
trailing newline that `readlines` keeps: the line without a final `'\n'`. -/
def stripTrailingNewline (line : Str) : Str :=
  if line.getLast? = some '\n' then line.dropLast else line

lemma getC_eq_getElem (s : Str) (i : Nat) : getC s i = s[i]? := by
  simp [getC, List.head?_drop]

lemma subAt_iff (pat s : Str) (i : Nat) :
    subAt pat s i = true ↔ (s.drop i).take pat.length = pat := by
  simp [subAt]

/-- Elements of the maximal digit run are digits at their line position. -/
lemma takeWhile_digit_getElem :
    ∀ (s : Str) (j : Nat), j < (s.takeWhile Char.isDigit).length →
      ∃ c, s[j]? = some c ∧ c.isDigit = true := by
  intro s
  induction s with
  | nil => intro j h; simp [List.takeWhile] at h
  | cons a as ih =>
    intro j h
    by_cases ha : a.isDigit = true
    · rw [List.takeWhile_cons_of_pos ha] at h
      cases j with
      | zero => exact ⟨a, by simp, ha⟩
      | succ j' =>
        have := ih j' (by simpa using Nat.lt_of_succ_lt_succ h)
        simpa using this
    · rw [List.takeWhile_cons_of_neg ha] at h
      simp at h

lemma stripTrailingNewline_cases (s : Str) :
    (stripTrailingNewline s = s ∧ s.getLast? ≠ some '\n') ∨
    (stripTrailingNewline s = s.dropLast ∧
      (stripTrailingNewline s).length + 1 = s.length ∧
      s[(stripTrailingNewline s).length]? = some '\n') := by
  unfold stripTrailingNewline
  by_cases h : s.getLast? = some '\n'
  · rw [if_pos h]
    right
    have hlen : s.length - 1 + 1 = s.length := by
      cases s with
      | nil => simp at h
      | cons a as => simp
    refine ⟨rfl, by simpa [List.length_dropLast] using hlen, ?_⟩
    rw [List.length_dropLast]
    rw [List.getLast?_eq_getElem?] at h
    exact h
  · rw [if_neg h]
    exact Or.inl ⟨rfl, h⟩

lemma subAt_getElem {pat s : Str} {i : Nat} (h : subAt pat s i = true) :
    ∀ k, k < pat.length → s[i + k]? = pat[k]? := by
  intro k hk
  rw [subAt_iff] at h
  have := congrArg (fun l => l[k]?) h
  simpa [List.getElem?_take, hk, List.getElem?_drop] using this

lemma subAt_take {pat s : Str} {i m : Nat} (h : subAt pat (s.take m) i = true)
    (hle : i + pat.length ≤ m) : subAt pat s i = true := by
  rw [subAt_iff] at h ⊢
  rw [List.drop_take] at h
  rw [List.take_take, Nat.min_eq_left (by omega)] at h
  exact h

lemma hline_line_facts (s : Str)
    (hnl : ∀ c ∈ s.dropLast, c ≠ '\n')
    (hend : endsWithSeq (strOf "\\hline") (stripTrailingNewline s) = true) :
    6 ≤ (stripTrailingNewline s).length ∧
    (stripTrailingNewline s).length ≤ s.length ∧
    subAt (strOf "\\hline") s ((stripTrailingNewline s).length - 6) = true ∧
    dollarAt s (stripTrailingNewline s).length = true ∧
    (∀ j c, s[j]? = some c → j < (stripTrailingNewline s).length → c ≠ '\n') ∧
    (∀ j c, s[j]? = some c → c.isDigit = true →
      j + 7 ≤ (stripTrailingNewline s).length) := by
  have hhl : (strOf "\\hline").length = 6 := by decide
  rw [endsWithSeq, Bool.and_eq_true, decide_eq_true_eq, hhl] at hend
  obtain ⟨h6, hsubL⟩ := hend
  have hnd : ∀ k, k < 6 → ((strOf "\\hline")[k]?).map Char.isDigit ≠ some true := by decide
  -- the digit bound follows from the other facts uniformly
  have digitStep : ∀ n : Nat, 6 ≤ n →
      subAt (strOf "\\hline") s (n - 6) = true →
      (∀ j c, s[j]? = some c → c.isDigit = true → j < n) →
      (∀ j c, s[j]? = some c → c.isDigit = true → j + 7 ≤ n) := by
    intro n h6n hsub hjn j c hj hc
    have hjlt := hjn j c hj hc
    by_cases hge : n - 6 ≤ j
    · exfalso
      have hk : j - (n - 6) < 6 := by omega
      have h1 := subAt_getElem hsub (j - (n - 6)) (by rw [hhl]; exact hk)
      rw [show (n - 6) + (j - (n - 6)) = j by omega, hj] at h1
      exact hnd _ hk (by rw [← h1]; simp [hc])
    · omega
  rcases stripTrailingNewline_cases s with ⟨hLs, hlast⟩ | ⟨hLs, hlen, hnlch⟩
  · rw [hLs] at h6 hsubL ⊢
    have hnonl : ∀ j c, s[j]? = some c → j < s.length → c ≠ '\n' := by
      intro j c hj hjlt
      by_cases hj1 : j < s.length - 1
      · refine hnl c ?_
        rw [List.mem_iff_getElem?]
        refine ⟨j, ?_⟩
        rw [List.dropLast_eq_take, List.getElem?_take, if_pos hj1]
        exact hj
      · have hj2 : j = s.length - 1 := by omega
        intro hceq
        subst hceq
        apply hlast
        rw [List.getLast?_eq_getElem?, ← hj2]
        exact hj
    refine ⟨h6, le_refl _, hsubL, by simp [dollarAt], hnonl, ?_⟩
    exact digitStep s.length h6 hsubL
      (fun j c hj _ => (List.getElem?_eq_some_iff.mp hj).1
        |>.trans_eq rfl)
  · rw [hLs] at h6 hsubL ⊢
    rw [List.length_dropLast] at h6 hsubL ⊢
    rw [hLs, List.length_dropLast] at hlen hnlch
    have htake : s.dropLast = s.take (s.length - 1) := List.dropLast_eq_take s
    rw [htake] at hsubL
    have hsub : subAt (strOf "\\hline") s (s.length - 1 - 6) = true :=
      subAt_take hsubL (by rw [hhl]; omega)
    have hnonl : ∀ j c, s[j]? = some c → j < s.length - 1 → c ≠ '\n' := by
      intro j c hj hjlt
      refine hnl c ?_
      rw [List.mem_iff_getElem?]
      refine ⟨j, ?_⟩
      rw [htake, List.getElem?_take, if_pos hjlt]
      exact hj
    refine ⟨h6, by omega, hsub, ?_, hnonl, ?_⟩
    · rw [dollarAt, Bool.or_eq_true]
      right
      rw [Bool.and_eq_true, decide_eq_true_eq]
      exact ⟨by omega, by rw [getC_eq_getElem]; simpa using hnlch⟩
    · refine digitStep (s.length - 1) h6 hsub ?_
      intro j c hj hc
      have hjlt := (List.getElem?_eq_some_iff.mp hj).1
      by_contra hge
      have : j = s.length - 1 := by omega
      subst this
      rw [hnlch] at hj
      cases hj
      simp at hc

lemma hlineLookahead_true (s : Str) (n : Nat) (hn : n ≤ s.length) (h6 : 6 ≤ n)
    (hsub : subAt (strOf "\\hline") s (n - 6) = true)
    (hdollar : dollarAt s n = true)
    (hnonl : ∀ j c, s[j]? = some c → j < n → c ≠ '\n') :
    ∀ p, p ≤ n - 6 → hlineLookahead s p = true := by
  intro p hp
  rw [hlineLookahead, List.any_eq_true]
  refine ⟨n - 6, List.mem_range.mpr (by omega), ?_⟩
  have hall : ((s.drop p).take (n - 6 - p)).all (· ≠ '\n') = true := by
    rw [List.all_eq_true]
    intro x hx
    rw [List.mem_iff_getElem?] at hx
    obtain ⟨i, hi⟩ := hx
    rw [List.getElem?_take] at hi
    by_cases hilt : i < n - 6 - p
    · rw [if_pos hilt, List.getElem?_drop] at hi
      have hne : x ≠ '\n' := hnonl (p + i) x hi (by omega)
      simpa using hne
    · rw [if_neg hilt] at hi
      exact absurd hi (by simp)
  simp only [Bool.and_eq_true, decide_eq_true_eq]
  refine ⟨⟨⟨hp, hall⟩, hsub⟩, ?_⟩
  rw [show n - 6 + 6 = n by omega]
  exact hdollar

lemma tableBacktrack_none (s : Str) (ds : Nat) :
    ∀ k, (∀ m, 1 ≤ m → m ≤ k → hlineLookahead s (ds + m) = true) →
      tableBacktrack s ds k = none := by
  intro k
  induction k with
  | zero => intro _; rfl
  | succ k' ih =>
    intro h
    have hstep : tableBacktrack s ds (k' + 1)
        = if hlineLookahead s (ds + (k' + 1)) then tableBacktrack s ds k'
          else some (ds + (k' + 1), (s.drop ds).take (k' + 1)) := rfl
    rw [hstep, h (k' + 1) (by omega) (Nat.le_refl _), if_pos rfl]
    exact ih (fun m h1 h2 => h m h1 (by omega))

lemma tableMatchAt_none_of_hline (s : Str)
    (hnl : ∀ c ∈ s.dropLast, c ≠ '\n')
    (hend : endsWithSeq (strOf "\\hline") (stripTrailingNewline s) = true) :
    ∀ i, tableMatchAt s i = none := by
  obtain ⟨h6, hn, hsub, hdollar, hnonl, hdig⟩ := hline_line_facts s hnl hend
  intro i
  unfold tableMatchAt
  cases hgc : getC s i with
  | none => rfl
  | some c0 =>
    by_cases hheader : ((c0 = 'T' || c0 = 't') && subAt (strOf "able ") s (i + 1)) = true
    · show (if ((c0 = 'T' || c0 = 't') && subAt (strOf "able ") s (i + 1)) = true then
          tableBacktrack s (i + 6) (digitRun s (i + 6)) else none) = none
      rw [if_pos hheader]
      apply tableBacktrack_none
      intro m h1 h2
      have hmlen : m - 1 < ((s.drop (i + 6)).takeWhile Char.isDigit).length := by
        have hdr : digitRun s (i + 6) = ((s.drop (i + 6)).takeWhile Char.isDigit).length := rfl
        omega
      obtain ⟨c, hc, hcd⟩ := takeWhile_digit_getElem (s.drop (i + 6)) (m - 1) hmlen
      rw [List.getElem?_drop] at hc
      have hj := hdig (i + 6 + (m - 1)) c hc hcd
      have := hlineLookahead_true s (stripTrailingNewline s).length hn h6 hsub hdollar hnonl
        (i + 6 + m) (by omega)
      exact this
    · show (if ((c0 = 'T' || c0 = 't') && subAt (strOf "able ") s (i + 1)) = true then
          tableBacktrack s (i + 6) (digitRun s (i + 6)) else none) = none
      rw [if_neg hheader]

lemma finditerGo_none (matchAt : Str → Nat → Option (Nat × Str)) (s : Str)
    (h : ∀ i, matchAt s i = none) :
    ∀ fuel i, finditerGo matchAt s fuel i = [] := by
  intro fuel
  induction fuel with
  | zero => intro i; rfl
  | succ f ih =>
    intro i
    have hstep : finditerGo matchAt s (f + 1) i
        = if i > s.length then []
          else match matchAt s i with
            | some (e, g) => (i, e, g) :: finditerGo matchAt s f (max e (i + 1))
            | none => finditerGo matchAt s f (i + 1) := rfl
    by_cases hi : i > s.length
    · rw [hstep, if_pos hi]
    · rw [hstep, if_neg hi, h i]
      exact ih (i + 1)

/-- C5: on any input line that ends in the table-continuation marker
`\hline` (with at most a trailing newline after it, as `readlines`
produces), the table pattern's negative lookahead suppresses every table
match, so the mention extractor emits no table mention at all for that
line. -/
theorem table_marker_line_suppressed :
    ∀ s : Str, (∀ c ∈ s.dropLast, c ≠ '\n') →
      endsWithSeq (strOf "\\hline") (stripTrailingNewline s) = true →
      extractImageNamesAndMentions [s] tableMatchAt tableIdentifier = [] := by
  intro s hnl hend
  unfold extractImageNamesAndMentions
  rw [List.foldl_cons, List.foldl_nil]
  rw [finditer, finditerGo_none tableMatchAt s (tableMatchAt_none_of_hline s hnl hend)]
  rfl

theorem table_marker_line_witness :
    (∀ c ∈ (strOf "blah Table 2 blah \\hline").dropLast, c ≠ '\n') ∧
    endsWithSeq (strOf "\\hline")
      (stripTrailingNewline (strOf "blah Table 2 blah \\hline")) = true ∧
    extractImageNamesAndMentions [strOf "blah Table 2 blah \\hline"]
      tableMatchAt tableIdentifier = [] :=
  ⟨by decide, by decide, table_marker_line_suppressed _ (by decide) (by decide)⟩
